import Mathlib

/- Verification of the react-ptri client-side coordinator: the timeline
   state machine (commit, undo, redo, checkout), the write serializer, and
   the fingerprint subscription hooks.  The linear timeline manager is the
   iteration documented in packages/core/README.md and exercised by
   hooks.ts and the history end-to-end tests; its provider source is not
   among the given files, so it is modelled from the specification.  The
   write queue and the hooks are embedded from
   src/packages/core/src/provider.tsx and src/packages/core/src/hooks.ts. -/

namespace ReactPtri

/-- Snapshot ids are opaque content-derived strings. -/
abbrev RootHash := String

/-- Modelled from the spec: persisted history metadata, the durable mirror
of the timeline and pointer maintained by the Persistence Adapter, with
layout given in the external interfaces section of the spec. -/
structure PersistedMeta where
  timeline : List RootHash
  index : Int
deriving DecidableEq

/-- Modelled from the spec: the Timeline Manager state, a linear log of
snapshot ids in commit order plus the current position pointer. -/
structure TimelineState where
  timeline : List RootHash
  index : Nat
deriving DecidableEq

/-- Modelled from the spec: well-formedness of persisted metadata adopted at
startup, a non-empty timeline with the index in range. -/
def wellFormedMeta (p : PersistedMeta) : Bool :=
  !p.timeline.isEmpty && decide (0 ≤ p.index) &&
    decide (p.index < (p.timeline.length : Int))

/-- Modelled from the spec: startup adopts persisted metadata when it is
well-formed and otherwise seeds the state from a fresh empty snapshot;
absent metadata, a load failure and a schema mismatch all arrive as none. -/
def initHistory (persisted : Option PersistedMeta) (fresh : RootHash) :
    TimelineState :=
  match persisted with
  | some p => if wellFormedMeta p then ⟨p.timeline, p.index.toNat⟩ else ⟨[fresh], 0⟩
  | none => ⟨[fresh], 0⟩

/-- Modelled from the spec: Commit keeps the timeline up to and including
the current index, appends the new id, and moves the pointer to the new
last position. -/
def commit (s : TimelineState) (id : RootHash) : TimelineState :=
  let base := s.timeline.take (s.index + 1)
  ⟨base ++ [id], (base ++ [id]).length - 1⟩

/-- Modelled from the spec: Undo is a no-op returning false at index zero
and otherwise moves the pointer one step back, returning true. -/
def undo (s : TimelineState) : TimelineState × Bool :=
  if s.index = 0 then (s, false)
  else ({ s with index := s.index - 1 }, true)

/-- Modelled from the spec: Redo is a no-op returning false at the last
index and otherwise moves the pointer one step forward, returning true. -/
def redo (s : TimelineState) : TimelineState × Bool :=
  if s.index = s.timeline.length - 1 then (s, false)
  else ({ s with index := s.index + 1 }, true)

/-- Error surfaced when checkout is invoked with an empty snapshot id. -/
inductive CheckoutError where
  | invalidCheckout
deriving DecidableEq

/-- Modelled from the spec: Checkout rejects an empty snapshot id before any
timeline mutation is attempted and otherwise behaves exactly like Commit
with an externally supplied id. -/
def checkout (s : TimelineState) (id : RootHash) :
    Except CheckoutError TimelineState :=
  if id = "" then Except.error CheckoutError.invalidCheckout
  else Except.ok (commit s id)

/-- The snapshot the pointer currently denotes. -/
def currentSnapshot (s : TimelineState) : RootHash :=
  s.timeline.getD s.index ""

/-- Derived predicate: an undo step is available. -/
def undoAvailable (s : TimelineState) : Bool :=
  decide (0 < s.index)

/-- Derived predicate: a redo step is available. -/
def redoAvailable (s : TimelineState) : Bool :=
  decide (s.index < s.timeline.length - 1)

/-- Derived measure: distance of the pointer from the head of the log. -/
def historyOffsetFromHead (s : TimelineState) : Nat :=
  s.timeline.length - 1 - s.index

/-- A sequence of commits folded over the timeline state. -/
def commitAll (s : TimelineState) (ids : List RootHash) : TimelineState :=
  ids.foldl commit s

/-- States reachable from an initialized session through commit, undo, redo
and successful checkout. -/
inductive Reachable : TimelineState → Prop
  | reach_init (persisted : Option PersistedMeta) (fresh : RootHash) :
      Reachable (initHistory persisted fresh)
  | reach_commit (s : TimelineState) (id : RootHash) :
      Reachable s → Reachable (commit s id)
  | reach_undo (s : TimelineState) : Reachable s → Reachable (undo s).1
  | reach_redo (s : TimelineState) : Reachable s → Reachable (redo s).1
  | reach_checkout (s t : TimelineState) (id : RootHash) :
      Reachable s → checkout s id = Except.ok t → Reachable t

/- Write Serializer, embedded from class WriteQueue in
   src/packages/core/src/provider.tsx.  The process loop drains submitted
   batches one at a time: each iteration reads the stored root, calls the
   engine mutate entry point, and on success stores the returned root and
   resolves that submission, while on failure it rejects only that
   submission and leaves the stored root unchanged.  The engine is kept
   abstract as a function from root and batch to a fallible result. -/

/-- Root evolution across one dequeued batch: on success the stored root
becomes the returned hash, on failure it is left unchanged. -/
def stepRoot {Ops E : Type} (mutate : RootHash → Ops → Except E RootHash)
    (root : RootHash) (ops : Ops) : RootHash :=
  match mutate root ops with
  | Except.ok next => next
  | Except.error _ => root

/-- Results delivered to the queued submissions, in submission order:
resolve with the new root on success, reject with the error on failure. -/
def processQueue {Ops E : Type} (mutate : RootHash → Ops → Except E RootHash) :
    RootHash → List Ops → List (Except E RootHash)
  | _, [] => []
  | root, ops :: rest =>
    match mutate root ops with
    | Except.ok next => Except.ok next :: processQueue mutate next rest
    | Except.error e => Except.error e :: processQueue mutate root rest

/-- The root observed by each batch at the moment it is dequeued, namely
the getRoot read performed inside the process loop. -/
def queueBases {Ops E : Type} (mutate : RootHash → Ops → Except E RootHash) :
    RootHash → List Ops → List RootHash
  | _, [] => []
  | root, ops :: rest => root :: queueBases mutate (stepRoot mutate root ops) rest

/-- Concrete engine used to witness the queue theorems: a batch is a flag,
a true batch extends the root and a false batch is rejected. -/
def demoMutate (root : RootHash) (ok : Bool) : Except Unit RootHash :=
  if ok then Except.ok (root ++ "x") else Except.error ()

/- Fingerprint subscription hooks, embedded from
   src/packages/core/src/hooks.ts.  A byte array object is modelled as its
   byte list together with a numeric identity token, so that reference
   identity and byte equality can be distinguished. -/

/-- A byte array object: contents plus an identity token that distinguishes
distinct object references holding equal bytes. -/
structure ByteRef where
  refId : Nat
  bytes : List Nat
deriving DecidableEq

/-- Byte comparison from hooks.ts: identical references, or both values
absent, compare true; one absent value compares false; otherwise the
lengths and then the bytes are compared elementwise. -/
def sameBytes (a b : Option ByteRef) : Bool :=
  match a, b with
  | none, none => true
  | some x, some y =>
      x.refId == y.refId ||
        (x.bytes.length == y.bytes.length && x.bytes == y.bytes)
  | _, _ => false

/-- State of the usePtriValue hook: the two refs holding the last
fingerprint and the last data object, plus the returned fields. -/
structure ValueHookState where
  prevFp : Option String
  prevData : Option ByteRef
  data : Option ByteRef
  fingerprint : Option String
  loading : Bool
deriving DecidableEq

/-- One completed evaluation of the usePtriValue effect: fp is the
fingerprint computed for the watched key and fetched is the value the
engine would return for it.  When fp differs from the stored fingerprint
the value is fetched and cached, except that byte-equal contents keep the
previously cached object; when fp is unchanged only the loading flag is
cleared and no fetch happens. -/
def usePtriValueStep (s : ValueHookState) (fp : String)
    (fetched : Option ByteRef) : ValueHookState :=
  if some fp ≠ s.prevFp then
    let same := sameBytes s.prevData fetched
    let newData := if same then s.prevData else fetched
    { prevFp := some fp, prevData := newData, data := newData,
      fingerprint := some fp, loading := false }
  else
    { s with loading := false }

/-- A result-set object returned by a range scan, with an identity token. -/
structure EntriesRef where
  refId : Nat
  entries : List (List Nat × List Nat)
deriving DecidableEq

/-- State of the usePtriRange hook. -/
structure RangeHookState where
  prevFp : Option String
  prevData : Option EntriesRef
  data : EntriesRef
  fingerprint : Option String
  loading : Bool
deriving DecidableEq

/-- One completed evaluation of the usePtriRange effect: when the
fingerprint differs the rows are fetched and cached, and when it is
unchanged only the loading flag is cleared and no fetch happens. -/
def usePtriRangeStep (s : RangeHookState) (fp : String)
    (fetched : EntriesRef) : RangeHookState :=
  if some fp ≠ s.prevFp then
    { prevFp := some fp, prevData := some fetched, data := fetched,
      fingerprint := some fp, loading := false }
  else
    { s with loading := false }

/- Helper lemmas. -/

theorem getD_append_len {α : Type} (l : List α) (a d : α) :
    (l ++ [a]).getD l.length d = a := by
  induction l with
  | nil => rfl
  | cons x xs ih =>
    simp only [List.cons_append, List.length_cons, List.getD, List.getElem?_cons_succ]
    exact ih

theorem getD_append_len_of {α : Type} (l : List α) (a d : α) (n : Nat)
    (h : l.length = n) : (l ++ [a]).getD n d = a := by
  subst h
  exact getD_append_len l a d

theorem getD_append_lt {α : Type} (l m : List α) (i : Nat) (d : α)
    (h : i < l.length) : (l ++ m).getD i d = l.getD i d := by
  induction l generalizing i with
  | nil => simp at h
  | cons x xs ih =>
    cases i with
    | zero => rfl
    | succ n => simpa [List.getD] using ih n (by simpa using h)

theorem getD_take_lt {α : Type} (l : List α) (n i : Nat) (d : α)
    (h : i < n) : (l.take n).getD i d = l.getD i d := by
  induction l generalizing n i with
  | nil => simp
  | cons x xs ih =>
    cases n with
    | zero => exact absurd h (Nat.not_lt_zero i)
    | succ m =>
      cases i with
      | zero => rfl
      | succ k => simpa [List.getD] using ih m k (by omega)

theorem wellFormedMeta_index_lt (p : PersistedMeta)
    (h : wellFormedMeta p = true) : p.index.toNat < p.timeline.length := by
  unfold wellFormedMeta at h
  simp only [Bool.and_eq_true, decide_eq_true_eq] at h
  omega

theorem commit_timeline_eq (s : TimelineState) (id : RootHash) :
    (commit s id).timeline = s.timeline.take (s.index + 1) ++ [id] := rfl

theorem commit_index_eq (s : TimelineState) (id : RootHash) :
    (commit s id).index = (commit s id).timeline.length - 1 := rfl

theorem commit_length (s : TimelineState) (id : RootHash)
    (h : s.index < s.timeline.length) :
    (commit s id).timeline.length = s.index + 2 := by
  simp [commit]
  omega

/-- Every reachable state keeps its pointer inside the timeline. -/
theorem reachable_index_lt (s : TimelineState) (h : Reachable s) :
    s.index < s.timeline.length := by
  induction h with
  | reach_init persisted fresh =>
    cases persisted with
    | none => simp [initHistory]
    | some p =>
      by_cases hw : wellFormedMeta p = true
      · simpa [initHistory, hw] using wellFormedMeta_index_lt p hw
      · simp [initHistory, hw]
  | reach_commit s id _ _ =>
    simp only [commit, List.length_append, List.length_cons, List.length_nil]
    omega
  | reach_undo s _ ih =>
    unfold undo
    split
    · exact ih
    · simp only []
      omega
  | reach_redo s _ ih =>
    unfold redo
    split
    · exact ih
    · rename_i hne
      simp only []
      omega
  | reach_checkout s t id _ hco _ =>
    unfold checkout at hco
    split at hco
    · cases hco
    · cases hco
      simp only [commit, List.length_append, List.length_cons, List.length_nil]
      omega

/-- C7: checkout with an empty snapshot id is rejected with the distinct
InvalidCheckout error before any timeline mutation is attempted, so the
timeline, the current index and the current snapshot are untouched. -/
theorem checkout_empty_id_rejected (s : TimelineState) :
    checkout s "" = Except.error CheckoutError.invalidCheckout := by
  unfold checkout
  simp

/-- C6: startup adopts persisted metadata exactly when it is well-formed, a
non-empty timeline with the index in range, and otherwise, including the
absent and load-failure cases, seeds the state from a fresh snapshot with
the timeline holding only that snapshot and the index zero. -/
theorem init_adopts_wellformed_meta (p : PersistedMeta) (fresh : RootHash) :
    (wellFormedMeta p = true →
      initHistory (some p) fresh = ⟨p.timeline, p.index.toNat⟩) ∧
    (wellFormedMeta p = false →
      initHistory (some p) fresh = ⟨[fresh], 0⟩) ∧
    initHistory none fresh = ⟨[fresh], 0⟩ := by
  refine ⟨fun hw => ?_, fun hw => ?_, rfl⟩
  · simp [initHistory, hw]
  · simp [initHistory, hw]

/-- Witness for C6 at concrete inputs: a well-formed persisted record is
adopted verbatim and an out-of-range index falls back to fresh seeding. -/
theorem init_adopts_wellformed_meta_witness :
    initHistory (some ⟨["a", "b"], 1⟩) "f" = ⟨["a", "b"], 1⟩ ∧
    initHistory (some ⟨["a", "b"], 5⟩) "f" = ⟨["f"], 0⟩ :=
  ⟨(init_adopts_wellformed_meta ⟨["a", "b"], 1⟩ "f").1 (by decide),
   (init_adopts_wellformed_meta ⟨["a", "b"], 5⟩ "f").2.1 (by decide)⟩

/-- C5: a commit issued while the pointer is not at the head keeps exactly
the timeline prefix up to and including the prior current index, discards
every later entry, appends the new id, moves the pointer to the new last
position, and leaves redo unavailable. -/
theorem commit_off_tip_truncates (s : TimelineState) (id : RootHash)
    (h : 0 < historyOffsetFromHead s) :
    (commit s id).timeline = s.timeline.take (s.index + 1) ++ [id] ∧
    (commit s id).index = (commit s id).timeline.length - 1 ∧
    redoAvailable (commit s id) = false := by
  refine ⟨rfl, rfl, ?_⟩
  simp [redoAvailable, commit]

/-- Witness for C5: committing c while one step behind the head of a
two-entry timeline truncates the stale entry and disables redo. -/
theorem commit_off_tip_truncates_witness :
    (commit ⟨["a", "b"], 0⟩ "c").timeline = ["a", "b"].take 1 ++ ["c"] ∧
    (commit ⟨["a", "b"], 0⟩ "c").index =
      (commit ⟨["a", "b"], 0⟩ "c").timeline.length - 1 ∧
    redoAvailable (commit ⟨["a", "b"], 0⟩ "c") = false :=
  commit_off_tip_truncates ⟨["a", "b"], 0⟩ "c" (by decide)

/-- C1: on every reachable state, checkout with a non-empty id succeeds and
behaves exactly like Commit with that id: it appends the id to the
timeline, moves the pointer onto it, and is undoable, an immediate Undo
returning true and restoring the snapshot that was current just before the
checkout. -/
theorem checkout_commit_undoable (s : TimelineState) (id : RootHash)
    (hs : Reachable s) (hid : id ≠ "") :
    checkout s id = Except.ok (commit s id) ∧
    currentSnapshot (commit s id) = id ∧
    (undo (commit s id)).2 = true ∧
    currentSnapshot (undo (commit s id)).1 = currentSnapshot s := by
  have hlt := reachable_index_lt s hs
  have hbl : (s.timeline.take (s.index + 1)).length = s.index + 1 := by
    simp only [List.length_take]
    omega
  have e1 : (commit s id).timeline = s.timeline.take (s.index + 1) ++ [id] := rfl
  have e2 : (commit s id).index = s.index + 1 := by
    show (s.timeline.take (s.index + 1) ++ [id]).length - 1 = s.index + 1
    simp only [List.length_append, List.length_cons, List.length_nil, hbl]
    omega
  have hne : ¬((commit s id).index = 0) := by
    rw [e2]
    omega
  have eu1 : (undo (commit s id)).2 = true := by
    unfold undo
    rw [if_neg hne]
  have eu2 : (undo (commit s id)).1.timeline =
      s.timeline.take (s.index + 1) ++ [id] := by
    unfold undo
    rw [if_neg hne]
    exact e1
  have eu3 : (undo (commit s id)).1.index = s.index := by
    unfold undo
    rw [if_neg hne]
    show (commit s id).index - 1 = s.index
    rw [e2]
    omega
  refine ⟨?_, ?_, eu1, ?_⟩
  · unfold checkout
    rw [if_neg hid]
  · unfold currentSnapshot
    rw [e1, e2]
    exact getD_append_len_of _ _ _ _ hbl
  · unfold currentSnapshot
    rw [eu2, eu3]
    rw [getD_append_lt _ _ _ _ (by rw [hbl]; omega)]
    exact getD_take_lt _ _ _ _ (by omega)

/-- Witness for C1: checkout of x right after fresh startup appends x, and
an immediate undo restores the startup snapshot. -/
theorem checkout_commit_undoable_witness :
    checkout (initHistory none "r0") "x" =
      Except.ok (commit (initHistory none "r0") "x") ∧
    currentSnapshot (commit (initHistory none "r0") "x") = "x" ∧
    (undo (commit (initHistory none "r0") "x")).2 = true ∧
    currentSnapshot (undo (commit (initHistory none "r0") "x")).1 =
      currentSnapshot (initHistory none "r0") :=
  checkout_commit_undoable (initHistory none "r0") "x"
    (Reachable.reach_init none "r0") (by decide)

theorem commitAll_at_tip (ids : List RootHash) (s : TimelineState)
    (h : s.index + 1 = s.timeline.length) :
    (commitAll s ids).timeline.length = s.timeline.length + ids.length ∧
    (commitAll s ids).index + 1 = (commitAll s ids).timeline.length := by
  induction ids generalizing s with
  | nil => exact ⟨rfl, h⟩
  | cons id rest ih =>
    have htake : s.timeline.take (s.index + 1) = s.timeline := by
      rw [h]
      exact List.take_length s.timeline
    have hc1 : (commit s id).timeline = s.timeline ++ [id] := by
      rw [commit_timeline_eq, htake]
    have hc2 : (commit s id).index + 1 = (commit s id).timeline.length := by
      rw [commit_index_eq, hc1]
      simp
    have hrec := ih (commit s id) hc2
    have hstep : commitAll s (id :: rest) = commitAll (commit s id) rest := rfl
    constructor
    · rw [hstep, hrec.1, hc1]
      simp only [List.length_append, List.length_cons, List.length_nil]
      omega
    · rw [hstep]
      exact hrec.2

/-- C3: starting from a freshly initialized state, after each of the first
k of a sequence of commits with no intervening undo, redo or checkout, the
timeline length is k plus one and the pointer sits at the last position;
moreover undo and redo never remove a timeline entry, and a commit removes
exactly the entries after the prior current index, keeping the prefix up to
and including it. -/
theorem commit_sequence_linear_growth (ids : List RootHash) (fresh : RootHash)
    (k : Nat) (hk : k ≤ ids.length) :
    (commitAll (initHistory none fresh) (ids.take k)).timeline.length = k + 1 ∧
    (commitAll (initHistory none fresh) (ids.take k)).index =
      (commitAll (initHistory none fresh) (ids.take k)).timeline.length - 1 ∧
    (∀ t id, (commit t id).timeline = t.timeline.take (t.index + 1) ++ [id]) ∧
    (∀ t, (undo t).1.timeline = t.timeline ∧ (redo t).1.timeline = t.timeline) := by
  have h0 : (initHistory none fresh).index + 1 =
      (initHistory none fresh).timeline.length := rfl
  have hmain := commitAll_at_tip (ids.take k) (initHistory none fresh) h0
  have hlen : (ids.take k).length = k := by
    simp only [List.length_take]
    omega
  refine ⟨?_, ?_, fun t id => rfl, fun t => ⟨?_, ?_⟩⟩
  · rw [hmain.1, hlen]
    have h1 : (initHistory none fresh).timeline.length = 1 := rfl
    omega
  · omega
  · unfold undo
    split <;> rfl
  · unfold redo
    split <;> rfl

/-- Witness for C3: two commits after fresh startup give a three-entry
timeline with the pointer at its end. -/
theorem commit_sequence_linear_growth_witness :
    (commitAll (initHistory none "r") (["a", "b"].take 2)).timeline.length =
      2 + 1 :=
  (commit_sequence_linear_growth ["a", "b"] "r" 2 (by decide)).1

/-- C4: on every reachable state, when undo is available the undo succeeds
and an immediate redo succeeds and restores the whole pre-undo state, in
particular the current snapshot; undo returns false and changes nothing
when unavailable, and redo returns false and changes nothing when
unavailable. -/
theorem undo_redo_roundtrip (s : TimelineState) (hs : Reachable s) :
    (undoAvailable s = true →
      (undo s).2 = true ∧ (redo (undo s).1).2 = true ∧
      (redo (undo s).1).1 = s ∧
      currentSnapshot (redo (undo s).1).1 = currentSnapshot s) ∧
    (undoAvailable s = false → undo s = (s, false)) ∧
    (redoAvailable s = false → redo s = (s, false)) := by
  have hlt := reachable_index_lt s hs
  refine ⟨fun hu => ?_, fun hu => ?_, fun hr => ?_⟩
  · have hi : 0 < s.index := of_decide_eq_true hu
    have e1 : undo s = ({ s with index := s.index - 1 }, true) := by
      unfold undo
      rw [if_neg (by omega)]
    have e2 : redo { s with index := s.index - 1 } =
        ({ s with index := s.index - 1 + 1 }, true) := by
      unfold redo
      rw [if_neg ?_]
      show ¬(s.index - 1 = s.timeline.length - 1)
      omega
    have e3 : ({ s with index := s.index - 1 + 1 } : TimelineState) = s := by
      have hx : s.index - 1 + 1 = s.index := by omega
      rw [hx]
    rw [e1, e2, e3]
    exact ⟨rfl, rfl, rfl, rfl⟩
  · have hi : s.index = 0 := by
      have := of_decide_eq_false hu
      omega
    unfold undo
    rw [if_pos hi]
  · have hi : s.index = s.timeline.length - 1 := by
      have := of_decide_eq_false hr
      omega
    unfold redo
    rw [if_pos hi]

/-- Witness for C4: after one commit past startup, undo then redo lands
back on the committed state. -/
theorem undo_redo_roundtrip_witness :
    (redo (undo (commit (initHistory none "r0") "r1")).1).1 =
      commit (initHistory none "r0") "r1" :=
  (((undo_redo_roundtrip (commit (initHistory none "r0") "r1")
      (Reachable.reach_commit _ _ (Reachable.reach_init none "r0"))).1
    (by decide)).2.2).1

/-- C2: the write queue drains submissions one at a time in FIFO submission
order and reads each application base at the moment the batch is dequeued:
when the first of two back-to-back submissions succeeds with root r1, the
head of the result list is exactly that outcome, the second submission
dequeues r1, the snapshot produced by the first, as its base, and whenever
the first actually changed the root the two bases differ. -/
theorem writeQueue_fifo_dequeue_base {Ops E : Type}
    (mutate : RootHash → Ops → Except E RootHash) (root r1 : RootHash)
    (b1 b2 : Ops) (rest : List Ops) (h1 : mutate root b1 = Except.ok r1) :
    processQueue mutate root (b1 :: b2 :: rest) =
      Except.ok r1 :: processQueue mutate r1 (b2 :: rest) ∧
    queueBases mutate root (b1 :: b2 :: rest) =
      root :: r1 :: queueBases mutate (stepRoot mutate r1 b2) rest ∧
    (queueBases mutate root (b1 :: b2 :: rest))[1]? = some r1 ∧
    (r1 ≠ root →
      (queueBases mutate root (b1 :: b2 :: rest))[1]? ≠
        (queueBases mutate root (b1 :: b2 :: rest))[0]?) := by
  have hs : stepRoot mutate root b1 = r1 := by
    unfold stepRoot
    rw [h1]
  refine ⟨?_, ?_, ?_, fun hne => ?_⟩
  · simp [processQueue, h1]
  · simp [queueBases, hs]
  · simp [queueBases, hs]
  · simp [queueBases, hs]
    exact hne

/-- Witness for C2: with the demo engine, the second of two successful
submissions dequeues the root produced by the first. -/
theorem writeQueue_fifo_dequeue_base_witness :
    (queueBases demoMutate "r" [true, true])[1]? = some "rx" :=
  (writeQueue_fifo_dequeue_base demoMutate "r" "rx" true true [] rfl).2.2.1

/-- C8: a rejected batch fails only its own submission: its caller receives
exactly that error at its queue position, the stored root is not advanced
by the failed batch, and every later submission is still processed exactly
as if dequeued against the last successfully committed root. -/
theorem writeQueue_failure_isolated {Ops E : Type}
    (mutate : RootHash → Ops → Except E RootHash) (root : RootHash) (e : E)
    (b1 : Ops) (rest : List Ops) (h1 : mutate root b1 = Except.error e) :
    processQueue mutate root (b1 :: rest) =
      Except.error e :: processQueue mutate root rest ∧
    queueBases mutate root (b1 :: rest) = root :: queueBases mutate root rest := by
  have hs : stepRoot mutate root b1 = root := by
    unfold stepRoot
    rw [h1]
  constructor
  · simp [processQueue, h1]
  · simp [queueBases, hs]

/-- Witness for C8: a rejected batch yields its error in first position and
the following batch still commits from the unchanged root. -/
theorem writeQueue_failure_isolated_witness :
    processQueue demoMutate "r" [false, true] =
      Except.error () :: processQueue demoMutate "r" [true] :=
  (writeQueue_failure_isolated demoMutate "r" () false [true] rfl).1

theorem usePtriValueStep_prevFp (s : ValueHookState) (fp : String)
    (v : Option ByteRef) : (usePtriValueStep s fp v).prevFp = some fp := by
  unfold usePtriValueStep
  split
  · rfl
  · rename_i h
    simp only [ne_eq, not_not] at h
    exact h.symm

theorem usePtriValueStep_loading (s : ValueHookState) (fp : String)
    (v : Option ByteRef) : (usePtriValueStep s fp v).loading = false := by
  unfold usePtriValueStep
  split <;> rfl

theorem valueHook_loading_update (s : ValueHookState) (h : s.loading = false) :
    { s with loading := false } = s := by
  cases s
  simp_all

theorem usePtriValueStep_unchanged (s : ValueHookState) (fp : String)
    (v : Option ByteRef) (h : s.prevFp = some fp) :
    usePtriValueStep s fp v = { s with loading := false } := by
  unfold usePtriValueStep
  rw [if_neg (by simp [h])]

theorem usePtriRangeStep_prevFp (t : RangeHookState) (fp : String)
    (u : EntriesRef) : (usePtriRangeStep t fp u).prevFp = some fp := by
  unfold usePtriRangeStep
  split
  · rfl
  · rename_i h
    simp only [ne_eq, not_not] at h
    exact h.symm

theorem usePtriRangeStep_loading (t : RangeHookState) (fp : String)
    (u : EntriesRef) : (usePtriRangeStep t fp u).loading = false := by
  unfold usePtriRangeStep
  split <;> rfl

theorem rangeHook_loading_update (t : RangeHookState) (h : t.loading = false) :
    { t with loading := false } = t := by
  cases t
  simp_all

theorem usePtriRangeStep_unchanged (t : RangeHookState) (fp : String)
    (u : EntriesRef) (h : t.prevFp = some fp) :
    usePtriRangeStep t fp u = { t with loading := false } := by
  unfold usePtriRangeStep
  rw [if_neg (by simp [h])]

/-- C9: when an evaluation computes a fingerprint equal to the stored one,
both hooks only clear their loading flag: no value is fetched, no new value
object is produced, and the cached value keeps its reference identity; in
particular two consecutive evaluations against an unchanged snapshot and
descriptor, which by the engine contract compute the same fingerprint,
leave the state fixed and return the identical cached data reference on the
second evaluation. -/
theorem subscription_unchanged_fingerprint_stable (s : ValueHookState)
    (t : RangeHookState) (fp gp : String) (v w : Option ByteRef)
    (u x : EntriesRef) :
    (s.prevFp = some fp →
      usePtriValueStep s fp v = { s with loading := false }) ∧
    usePtriValueStep (usePtriValueStep s fp v) fp w = usePtriValueStep s fp v ∧
    (usePtriValueStep (usePtriValueStep s fp v) fp w).data =
      (usePtriValueStep s fp v).data ∧
    (t.prevFp = some gp →
      usePtriRangeStep t gp u = { t with loading := false }) ∧
    usePtriRangeStep (usePtriRangeStep t gp u) gp x = usePtriRangeStep t gp u := by
  have hv : usePtriValueStep (usePtriValueStep s fp v) fp w =
      usePtriValueStep s fp v := by
    rw [usePtriValueStep_unchanged _ _ _ (usePtriValueStep_prevFp s fp v)]
    exact valueHook_loading_update _ (usePtriValueStep_loading s fp v)
  have hr : usePtriRangeStep (usePtriRangeStep t gp u) gp x =
      usePtriRangeStep t gp u := by
    rw [usePtriRangeStep_unchanged _ _ _ (usePtriRangeStep_prevFp t gp u)]
    exact rangeHook_loading_update _ (usePtriRangeStep_loading t gp u)
  exact ⟨fun h => usePtriValueStep_unchanged s fp v h, hv, by rw [hv],
    fun h => usePtriRangeStep_unchanged t gp u h, hr⟩

/-- Witness for C9: an evaluation whose fingerprint matches the stored one
returns the state untouched except for the loading flag. -/
theorem subscription_unchanged_fingerprint_stable_witness :
    usePtriValueStep ⟨some "f", none, none, some "f", true⟩ "f" none =
      { (⟨some "f", none, none, some "f", true⟩ : ValueHookState) with
          loading := false } :=
  (subscription_unchanged_fingerprint_stable
      ⟨some "f", none, none, some "f", true⟩
      ⟨some "g", none, ⟨0, []⟩, some "g", false⟩ "f" "g" none none
      ⟨1, []⟩ ⟨2, []⟩).1 rfl

/-- C10: even when the fingerprint differs from the stored one, a freshly
fetched value whose bytes equal the cached bytes leaves the returned data
field on the previously cached object, replacing only the fingerprint, so
byte-identical values never produce a new data object. -/
theorem value_hook_keeps_reference_on_equal_bytes (s : ValueHookState)
    (fp : String) (v : Option ByteRef) (h1 : some fp ≠ s.prevFp)
    (h2 : sameBytes s.prevData v = true) :
    (usePtriValueStep s fp v).data = s.prevData ∧
    (usePtriValueStep s fp v).prevData = s.prevData ∧
    (usePtriValueStep s fp v).fingerprint = some fp ∧
    (usePtriValueStep s fp v).prevFp = some fp := by
  unfold usePtriValueStep
  rw [if_pos h1]
  simp [h2]

/-- Witness for C10: a fetched object with a new identity but the same
bytes as the cache leaves the returned data on the old object. -/
theorem value_hook_keeps_reference_on_equal_bytes_witness :
    (usePtriValueStep
        ⟨some "a", some ⟨0, [1, 2]⟩, some ⟨0, [1, 2]⟩, some "a", false⟩
        "b" (some ⟨5, [1, 2]⟩)).data = some ⟨0, [1, 2]⟩ :=
  (value_hook_keeps_reference_on_equal_bytes
      ⟨some "a", some ⟨0, [1, 2]⟩, some ⟨0, [1, 2]⟩, some "a", false⟩
      "b" (some ⟨5, [1, 2]⟩) (by decide) (by decide)).1

end ReactPtri
